import Mathlib

/-!
Verification of the markdown code-block extraction and file-materialization
core of the AI-Software-Engineer repository.

The Python sources are shallowly embedded over `List Char`:
`src/utils.py` (`clean_code`, `write_file`, `extract_code_from_markdown`),
`src/agent/agent.py` (`_extract_filename_from_content`,
`_get_extension_for_language`, `_create_project_structure`,
`_save_code_blocks_to_files`) and
`src/agent/workflows/software_dev_workflow.py` (`extract_filename_from_content`).

Modelling conventions:
* Strings are `List Char`; Python whitespace is the six ASCII whitespace
  characters (unicode spaces are not modelled).
* `str.splitlines` is modelled with LF as the line boundary (CR and the other
  exotic boundary characters are not modelled); `str.split('\n')` is exact.
* The regular-expression engines for the filename-announcement patterns are
  abstracted: a scan function receives, for each pattern in the source's fixed
  order, the list of capture values (with match start offsets where order
  matters) that `re.finditer` yields on the document, in document order.
  The project-structure regexes, whose backtracking behaviour is load-bearing,
  are modelled concretely.
* The filesystem is a record of a list of directories and an association list
  of (path, content) files; `os.path.join` / `os.path.dirname` follow the
  posixpath semantics of the source's runtime.
-/

/-- The six ASCII whitespace characters stripped by Python's `str.strip`
family and matched by the regex class `\s`. -/
def isPyWs (c : Char) : Bool :=
  c = ' ' || c = '\t' || c = '\n' || c = '\r' || c = '\x0b' || c = '\x0c'

/-- Python `str.rstrip()` (default whitespace). -/
def rstrip (l : List Char) : List Char :=
  (l.reverse.dropWhile isPyWs).reverse

/-- Python `str.lstrip()` (default whitespace). -/
def lstrip (l : List Char) : List Char :=
  l.dropWhile isPyWs

/-- Python `str.strip()` (default whitespace). -/
def stripL (l : List Char) : List Char :=
  rstrip (lstrip l)

/-- Python `str.lower()` (ASCII case folding suffices for the tags used). -/
def toLowerL (l : List Char) : List Char :=
  l.map Char.toLower

/-- Python `s.split('\n')`: every LF is a separator, empty segments kept,
`''.split('\n') == ['']`. -/
def splitNL : List Char → List (List Char)
  | [] => [[]]
  | c :: cs =>
    if c = '\n' then [] :: splitNL cs
    else
      match splitNL cs with
      | [] => [[c]]
      | h :: t => (c :: h) :: t

/-- Python `s.splitlines()` with LF boundaries: like `split('\n')` but a
single trailing empty segment (present exactly when the string ends in LF or
is empty) is dropped. -/
def pySplitlines (s : List Char) : List (List Char) :=
  let r := splitNL s
  if r.getLast? = some [] then r.dropLast else r

/-- Python `'\n'.join(lines)`. -/
def joinNL : List (List Char) → List Char
  | [] => []
  | [l] => l
  | l :: ls => l ++ '\n' :: joinNL ls

/-- Embeds `re.sub(r'%+$', '', code)`: `$` (without `re.MULTILINE`) anchors at
the end of the string or just before a final newline, so the substitution
removes the maximal run of `%` there (at most one match is possible). -/
def subPercent (s : List Char) : List Char :=
  if s.reverse.head? = some '\n' then
    ('\n' :: s.reverse.tail.dropWhile (· = '%')).reverse
  else (s.reverse.dropWhile (· = '%')).reverse

/-- Embeds `utils.clean_code`: strip the trailing `%` run, rstrip every line,
re-join with LF, rstrip the whole string. -/
def clean_code (code : List Char) : List Char :=
  let code1 := subPercent code
  let lines := pySplitlines code1
  let cleaned_lines := lines.map rstrip
  let cleaned_code := joinNL cleaned_lines
  rstrip cleaned_code

-- scratch sanity checks (hand-traced against the Python):
example : clean_code "a%% ".data = "a%%".data := by decide
example : clean_code "a%%".data = "a".data := by decide
example : clean_code "abc%%%\n".data = "abc".data := by decide
example : clean_code "ab \ncd\t\n\n".data = "ab\ncd".data := by decide
example : subPercent "abc%%%\n\n".data = "abc%%%\n\n".data := by decide
example : pySplitlines "a\n\n".data = ["a".data, []] := by decide
example : pySplitlines [] = [] := by decide

/-! ### Toolkit lemmas about `rstrip`, `splitNL`, `joinNL` -/

theorem dropWhile_idem (p : α → Bool) (l : List α) :
    List.dropWhile p (List.dropWhile p l) = List.dropWhile p l := by
  induction l with
  | nil => rfl
  | cons a t ih =>
    by_cases h : p a
    · simp [List.dropWhile_cons, h, ih]
    · simp [List.dropWhile_cons, h]

theorem not_head_of_dropWhile_eq_self {p : α → Bool} {c : α} {t : List α}
    (h : List.dropWhile p (c :: t) = c :: t) : p c = false := by
  by_cases hc : p c
  · exfalso
    rw [List.dropWhile_cons, if_pos hc] at h
    have hle := (List.dropWhile_sublist (l := t) p).length_le
    rw [h] at hle
    simp at hle
  · simpa using hc

theorem rstrip_idem (l : List Char) : rstrip (rstrip l) = rstrip l := by
  unfold rstrip
  rw [List.reverse_reverse, dropWhile_idem]

theorem mem_of_mem_rstrip {c : Char} {l : List Char} (h : c ∈ rstrip l) : c ∈ l := by
  unfold rstrip at h
  rw [List.mem_reverse] at h
  have := (List.dropWhile_sublist (l := l.reverse) isPyWs).subset h
  simpa using this

theorem rstrip_append_ws {u v : List Char} (h : ∀ c ∈ v, isPyWs c) :
    rstrip (u ++ v) = rstrip u := by
  unfold rstrip
  rw [List.reverse_append, List.dropWhile_append]
  have hv : List.dropWhile isPyWs v.reverse = [] := by
    rw [List.dropWhile_eq_nil_iff]
    intro x hx
    exact h x (by simpa using hx)
  rw [hv]
  simp

theorem rstrip_append_of_ne {u v : List Char} (h : rstrip v ≠ []) :
    rstrip (u ++ v) = u ++ rstrip v := by
  unfold rstrip at *
  rw [List.reverse_append, List.dropWhile_append]
  have hv : ¬ (List.dropWhile isPyWs v.reverse).isEmpty := by
    intro hc
    exact h (by simp [List.isEmpty_iff.mp hc])
  rw [if_neg (by simpa using hv)]
  simp

theorem rstrip_nil : rstrip ([] : List Char) = [] := rfl

theorem splitNL_ne_nil (s : List Char) : splitNL s ≠ [] := by
  cases s with
  | nil => simp [splitNL]
  | cons c cs =>
    unfold splitNL
    by_cases h : c = '\n'
    · simp [h]
    · simp only [if_neg h]
      cases splitNL cs <;> simp

theorem mem_splitNL_no_nl {s : List Char} : ∀ l ∈ splitNL s, '\n' ∉ l := by
  induction s with
  | nil =>
    intro l h
    simp [splitNL] at h
    simp [h]
  | cons c cs ih =>
    intro l h
    unfold splitNL at h
    by_cases hc : c = '\n'
    · rw [if_pos hc] at h
      rcases List.mem_cons.mp h with h | h
      · simp [h]
      · exact ih l h
    · rw [if_neg hc] at h
      rcases hs : splitNL cs with _ | ⟨hd, tl⟩
      · exact absurd hs (splitNL_ne_nil cs)
      · rw [hs] at h
        rcases List.mem_cons.mp h with h | h
        · subst h
          intro hmem
          rcases List.mem_cons.mp hmem with hmem | hmem
          · exact hc hmem.symm
          · exact ih hd (hs ▸ List.mem_cons_self hd tl) hmem
        · exact ih l (hs ▸ List.mem_cons_of_mem hd h)

theorem splitNL_append_no_nl {u : List Char} (hu : '\n' ∉ u) (s : List Char)
    {h : List Char} {t : List (List Char)} (hs : splitNL s = h :: t) :
    splitNL (u ++ s) = (u ++ h) :: t := by
  induction u with
  | nil => simpa using hs
  | cons c u' ih =>
    have hc : c ≠ '\n' := fun hc => hu (hc ▸ List.mem_cons_self c u')
    have hu' : '\n' ∉ u' := fun hm => hu (List.mem_cons_of_mem c hm)
    have := ih hu'
    simp only [List.cons_append]
    unfold splitNL
    rw [if_neg hc, this]

theorem splitNL_no_nl {l : List Char} (h : '\n' ∉ l) : splitNL l = [l] := by
  have : splitNL (l ++ []) = (l ++ []) :: [] :=
    splitNL_append_no_nl h [] (by rfl)
  simpa using this

theorem splitNL_joinNL {ns : List (List Char)} (hnl : ∀ l ∈ ns, '\n' ∉ l)
    (hne : ns ≠ []) : splitNL (joinNL ns) = ns := by
  induction ns with
  | nil => exact absurd rfl hne
  | cons a t ih =>
    cases t with
    | nil =>
      show splitNL (joinNL [a]) = [a]
      rw [show joinNL [a] = a from rfl]
      exact splitNL_no_nl (hnl a (List.mem_cons_self a []))
    | cons b t' =>
      have hj : joinNL (a :: b :: t') = a ++ '\n' :: joinNL (b :: t') := rfl
      rw [hj]
      have hrec : splitNL (joinNL (b :: t')) = b :: t' :=
        ih (fun l hl => hnl l (List.mem_cons_of_mem a hl)) (by simp)
      have hmid : splitNL ('\n' :: joinNL (b :: t')) = [] :: b :: t' := by
        unfold splitNL
        rw [if_pos rfl, hrec]
      have := splitNL_append_no_nl (hnl a (List.mem_cons_self a (b :: t')))
        ('\n' :: joinNL (b :: t')) hmid
      simpa using this

/-- Drop the trailing run of empty lines from a line list. -/
def dropTrailingEmpties (ls : List (List Char)) : List (List Char) :=
  (ls.reverse.dropWhile (fun l => l.isEmpty)).reverse

theorem mem_dropTrailingEmpties {l : List Char} {ls : List (List Char)}
    (h : l ∈ dropTrailingEmpties ls) : l ∈ ls := by
  unfold dropTrailingEmpties at h
  rw [List.mem_reverse] at h
  have := (List.dropWhile_sublist (l := ls.reverse) (fun l => l.isEmpty)).subset h
  simpa using this

theorem dropTrailingEmpties_getLast? (ls : List (List Char)) :
    dropTrailingEmpties ls ≠ [] → (dropTrailingEmpties ls).getLast? ≠ some [] := by
  intro _ hcon
  rw [List.getLast?_eq_head?_reverse] at hcon
  unfold dropTrailingEmpties at hcon
  rw [List.reverse_reverse] at hcon
  have := List.head?_dropWhile_not (fun l : List Char => l.isEmpty) ls.reverse
  rw [hcon] at this
  simp at this

theorem dropTrailingEmpties_cons_of_ne {a : List Char} {ls : List (List Char)}
    (h : dropTrailingEmpties ls ≠ []) :
    dropTrailingEmpties (a :: ls) = a :: dropTrailingEmpties ls := by
  unfold dropTrailingEmpties at *
  rw [show (a :: ls).reverse = ls.reverse ++ [a] from by simp, List.dropWhile_append]
  rw [if_neg (by
    intro hc
    exact h (by simp [List.isEmpty_iff.mp hc]))]
  simp

theorem dropTrailingEmpties_cons_of_nil {a : List Char} {ls : List (List Char)}
    (h : dropTrailingEmpties ls = []) :
    dropTrailingEmpties (a :: ls) = if a.isEmpty then [] else [a] := by
  unfold dropTrailingEmpties at *
  rw [show (a :: ls).reverse = ls.reverse ++ [a] from by simp, List.dropWhile_append]
  rw [if_pos (by
    rw [List.isEmpty_iff]
    simpa using congrArg List.reverse h)]
  by_cases ha : a.isEmpty
  · simp [List.dropWhile_cons, ha]
  · simp [List.dropWhile_cons, ha]

theorem all_empty_of_dropTrailingEmpties_nil {ls : List (List Char)}
    (h : dropTrailingEmpties ls = []) : ∀ l ∈ ls, l = [] := by
  intro l hl
  unfold dropTrailingEmpties at h
  have h2 : ls.reverse.dropWhile (fun l => l.isEmpty) = [] := by
    simpa using congrArg List.reverse h
  rw [List.dropWhile_eq_nil_iff] at h2
  exact List.isEmpty_iff.mp (h2 l (by simpa using hl))

theorem joinNL_all_nl {ns : List (List Char)} (h : ∀ l ∈ ns, l = []) :
    ∀ c ∈ joinNL ns, isPyWs c := by
  induction ns with
  | nil => simp [joinNL]
  | cons a t ih =>
    cases t with
    | nil =>
      intro c hc
      rw [show joinNL [a] = a from rfl, h a (List.mem_cons_self a [])] at hc
      simp at hc
    | cons b t' =>
      intro c hc
      rw [show joinNL (a :: b :: t') = a ++ '\n' :: joinNL (b :: t') from rfl] at hc
      rw [h a (List.mem_cons_self a (b :: t'))] at hc
      rcases List.mem_cons.mp (by simpa using hc) with h1 | h1
      · subst h1; decide
      · exact ih (fun l hl => h l (List.mem_cons_of_mem a hl)) c h1

theorem joinNL_ne_nil {h : List Char} {t : List (List Char)}
    (hne : h ≠ [] ∨ t ≠ []) : joinNL (h :: t) ≠ [] := by
  cases t with
  | nil =>
    rcases hne with hne | hne
    · simpa [joinNL] using hne
    · exact absurd rfl hne
  | cons b t' =>
    rw [show joinNL (h :: b :: t') = h ++ '\n' :: joinNL (b :: t') from rfl]
    simp

/-- Key structural lemma: when every line is already right-stripped, the
final whole-string `rstrip` of `clean_code` exactly removes the trailing
run of empty lines. -/
theorem rstrip_joinNL {ns : List (List Char)} (h : ∀ l ∈ ns, rstrip l = l) :
    rstrip (joinNL ns) = joinNL (dropTrailingEmpties ns) := by
  induction ns with
  | nil => simp [joinNL, dropTrailingEmpties, rstrip]
  | cons a t ih =>
    have ha : rstrip a = a := h a (List.mem_cons_self a t)
    have ht : ∀ l ∈ t, rstrip l = l := fun l hl => h l (List.mem_cons_of_mem a hl)
    cases t with
    | nil =>
      rw [show joinNL [a] = a from rfl, ha]
      by_cases hae : a.isEmpty
      · rw [dropTrailingEmpties_cons_of_nil (by rfl), if_pos hae]
        rw [List.isEmpty_iff.mp hae]
        rfl
      · rw [dropTrailingEmpties_cons_of_nil (by rfl), if_neg hae]
        rfl
    | cons b t' =>
      rw [show joinNL (a :: b :: t') = a ++ '\n' :: joinNL (b :: t') from rfl]
      by_cases hd : dropTrailingEmpties (b :: t') = []
      · have hall : ∀ l ∈ (b :: t'), l = [] := all_empty_of_dropTrailingEmpties_nil hd
        have hws : ∀ c ∈ '\n' :: joinNL (b :: t'), isPyWs c := by
          intro c hc
          rcases List.mem_cons.mp hc with h1 | h1
          · subst h1; decide
          · exact joinNL_all_nl hall c h1
        rw [rstrip_append_ws hws, ha, dropTrailingEmpties_cons_of_nil hd]
        by_cases hae : a.isEmpty
        · rw [if_pos hae, List.isEmpty_iff.mp hae]
          rfl
        · rw [if_neg hae]
          rfl
      · have hj : joinNL (dropTrailingEmpties (b :: t')) ≠ [] := by
          rcases hx : dropTrailingEmpties (b :: t') with _ | ⟨x, xs⟩
          · exact absurd hx hd
          · apply joinNL_ne_nil
            by_cases hxs : xs = []
            · left
              intro hxe
              have := dropTrailingEmpties_getLast? (b :: t') hd
              rw [hx, hxs, hxe] at this
              simp at this
            · right; exact hxs
        have hrec : rstrip (joinNL (b :: t')) = joinNL (dropTrailingEmpties (b :: t')) :=
          ih ht
        have hv : rstrip ('\n' :: joinNL (b :: t')) =
            '\n' :: joinNL (dropTrailingEmpties (b :: t')) := by
          have := rstrip_append_of_ne (u := ['\n']) (v := joinNL (b :: t'))
            (by rw [hrec]; exact hj)
          simpa [hrec] using this
        have hv2 : rstrip ('\n' :: joinNL (b :: t')) ≠ [] := by
          rw [hv]; simp
        rw [rstrip_append_of_ne hv2, hv, dropTrailingEmpties_cons_of_ne hd]
        rcases hx : dropTrailingEmpties (b :: t') with _ | ⟨x, xs⟩
        · exact absurd hx hd
        · rfl

theorem mem_pySplitlines_no_nl {s : List Char} {l : List Char}
    (h : l ∈ pySplitlines s) : '\n' ∉ l := by
  unfold pySplitlines at h
  by_cases hc : (splitNL s).getLast? = some []
  · rw [if_pos hc] at h
    exact mem_splitNL_no_nl l ((List.dropLast_sublist (splitNL s)).subset h)
  · rw [if_neg hc] at h
    exact mem_splitNL_no_nl l h

theorem map_rstrip_self {ns : List (List Char)} (h : ∀ l ∈ ns, rstrip l = l) :
    ns.map rstrip = ns := by
  induction ns with
  | nil => rfl
  | cons a t ih =>
    rw [List.map_cons, h a (List.mem_cons_self a t),
      ih (fun l hl => h l (List.mem_cons_of_mem a hl))]

/-- `clean_code` unfolded into its normal form: the right-stripped lines of
the `%`-substituted input with the trailing run of empty lines removed,
joined by LF. -/
theorem clean_code_eq_joinNL (x : List Char) :
    clean_code x =
      joinNL (dropTrailingEmpties ((pySplitlines (subPercent x)).map rstrip)) := by
  unfold clean_code
  exact rstrip_joinNL (by
    intro l hl
    rcases List.mem_map.mp hl with ⟨l0, _, rfl⟩
    exact rstrip_idem l0)

theorem pySplitlines_clean_code (x : List Char) :
    pySplitlines (clean_code x) =
      dropTrailingEmpties ((pySplitlines (subPercent x)).map rstrip) := by
  rw [clean_code_eq_joinNL]
  set ns := dropTrailingEmpties ((pySplitlines (subPercent x)).map rstrip) with hns
  by_cases hne : ns = []
  · rw [hne]
    rfl
  · have hnonl : ∀ l ∈ ns, '\n' ∉ l := by
      intro l hl
      rcases List.mem_map.mp (mem_dropTrailingEmpties (hns ▸ hl)) with ⟨l0, hl0, rfl⟩
      intro hmem
      exact mem_pySplitlines_no_nl hl0 (mem_of_mem_rstrip hmem)
    have hsplit : splitNL (joinNL ns) = ns := splitNL_joinNL hnonl hne
    unfold pySplitlines
    rw [hsplit, if_neg (dropTrailingEmpties_getLast? _ (hns ▸ hne))]

theorem rstrip_clean_code (x : List Char) :
    rstrip (clean_code x) = clean_code x := by
  unfold clean_code
  exact rstrip_idem _

theorem clean_code_lines_rstripped {x : List Char} :
    ∀ l ∈ pySplitlines (clean_code x), rstrip l = l := by
  intro l hl
  rw [pySplitlines_clean_code] at hl
  rcases List.mem_map.mp (mem_dropTrailingEmpties hl) with ⟨l0, _, rfl⟩
  exact rstrip_idem l0

theorem getLast_not_ws_of_rstripped {y : List Char} {c : Char}
    (hy : rstrip y = y) (hc : y.getLast? = some c) : isPyWs c = false := by
  rw [List.getLast?_eq_head?_reverse] at hc
  have hrev : List.dropWhile isPyWs y.reverse = y.reverse := by
    have := congrArg List.reverse hy
    unfold rstrip at this
    simpa using this
  rcases hr : y.reverse with _ | ⟨d, rest⟩
  · rw [hr] at hc; simp at hc
  · rw [hr] at hc hrev
    have : d = c := by simpa using hc
    subst this
    exact not_head_of_dropWhile_eq_self hrev

theorem subPercent_eq_self {y : List Char} (hy : rstrip y = y)
    (hp : y.getLast? ≠ some '%') : subPercent y = y := by
  unfold subPercent
  rcases hr : y.reverse with _ | ⟨c, rest⟩
  · have : y = [] := by simpa using congrArg List.reverse hr
    subst this
    rfl
  · have hlast : y.getLast? = some c := by
      rw [List.getLast?_eq_head?_reverse, hr]
      rfl
    have hws : isPyWs c = false := getLast_not_ws_of_rstripped hy hlast
    have hnotnl : c ≠ '\n' := by
      intro hcon
      rw [hcon] at hws
      simp [isPyWs] at hws
    have hnotpct : c ≠ '%' := by
      intro hcon
      exact hp (hcon ▸ hlast)
    rw [if_neg (by simpa using hnotnl)]
    rw [List.dropWhile_cons, if_neg (by simpa using hnotpct)]
    rw [← hr, List.reverse_reverse]

-- scratch model checks for C1:
example : clean_code (clean_code "a%% ".data) ≠ clean_code "a%% ".data := by decide

/-- Claim C1 counterexample: the sanitizer is not idempotent. For the code
body `"a%% "`, `clean_code` first finds no trailing `%` run (the body ends in
a space), then the per-line rstrip exposes one, giving `"a%%"`; a second
application strips the `%` run, giving `"a"`. -/
theorem clean_code_not_idempotent :
    clean_code (clean_code ['a', '%', '%', ' ']) ≠ clean_code ['a', '%', '%', ' '] := by
  decide

/-- Claim C1 (amended): the sanitizer is idempotent on every code body whose
sanitized form does not end with a `%` character: if `clean_code x` does not
end in `'%'`, then `clean_code (clean_code x) = clean_code x`. (Whenever
`clean_code x` does end in `'%'`, a second application strips that run, as in
the counterexample.) -/
theorem clean_code_idempotent_of_no_trailing_pct (x : List Char)
    (h : (clean_code x).getLast? ≠ some '%') :
    clean_code (clean_code x) = clean_code x := by
  have hsub : subPercent (clean_code x) = clean_code x :=
    subPercent_eq_self (rstrip_clean_code x) h
  conv_lhs => rw [clean_code]
  rw [hsub]
  rw [map_rstrip_self (fun l hl => clean_code_lines_rstripped l hl)]
  rw [pySplitlines_clean_code]
  rw [← clean_code_eq_joinNL]
  exact rstrip_clean_code x

/-- Witness for C1's amended theorem at the concrete body `"ab \ncd \n\n"`. -/
theorem clean_code_idempotent_witness :
    (clean_code "ab \ncd \n\n".data).getLast? ≠ some '%' ∧
      clean_code (clean_code "ab \ncd \n\n".data) = clean_code "ab \ncd \n\n".data :=
  ⟨by decide, clean_code_idempotent_of_no_trailing_pct "ab \ncd \n\n".data (by decide)⟩

/-! ### The markdown block extractor (`utils.extract_code_from_markdown`) -/

/-- An extracted fenced code block: the dictionary
`{'language': ..., 'code': ...}` of the source. -/
structure CodeBlock where
  language : List Char
  code : List Char
deriving DecidableEq, Repr

/-- The backtick character. -/
def btick : Char := Char.ofNat 96

/-- The triple-backtick fence marker. -/
def fenceMarker : List Char := [btick, btick, btick]

/-- Python `line.startswith` on the triple-backtick marker: the line's first
three characters are the fence marker. No leading whitespace is stripped — this is
exactly what the source tests. -/
def startsTB (l : List Char) : Bool := l.take 3 = fenceMarker

/-- The inner `while` loop of `extract_code_from_markdown`: collect lines
until the next fence line; that closing fence line is consumed (dropped) when
present. Returns `(code_lines, remaining_lines)`. -/
def collectBody : List (List Char) → List (List Char) × List (List Char)
  | [] => ([], [])
  | l :: ls =>
    if startsTB l then ([], ls)
    else
      let r := collectBody ls
      (l :: r.1, r.2)

theorem collectBody_snd_length_le (ls : List (List Char)) :
    (collectBody ls).2.length ≤ ls.length := by
  induction ls with
  | nil => simp [collectBody]
  | cons l ls ih =>
    unfold collectBody
    by_cases h : startsTB l
    · simp [h]
    · simpa [h] using Nat.le_succ_of_le ih

/-- The outer `while` loop of `extract_code_from_markdown`, over the list of
lines, with explicit fuel (one unit per loop iteration; `fuel ≥` the number
of lines always suffices, see `extractFromF_congr`): a line starting with the
fence marker opens a block whose language tag is the trimmed remainder of the
line and whose body is everything up to the next fence line. -/
def extractFromF : Nat → List (List Char) → List CodeBlock
  | _, [] => []
  | 0, _ :: _ => []
  | fuel + 1, l :: ls =>
    if startsTB l then
      ⟨stripL (l.drop 3), joinNL (collectBody ls).1⟩ ::
        extractFromF fuel (collectBody ls).2
    else extractFromF fuel ls

/-- The fence-scanning loop at its canonical fuel. -/
def extractFrom (ls : List (List Char)) : List CodeBlock :=
  extractFromF ls.length ls

theorem extractFromF_congr :
    ∀ fuel fuel' ls, ls.length ≤ fuel → ls.length ≤ fuel' →
      extractFromF fuel ls = extractFromF fuel' ls := by
  intro fuel
  induction fuel with
  | zero =>
    intro fuel' ls h _
    have : ls = [] := List.length_eq_zero.mp (Nat.le_zero.mp h)
    subst this
    cases fuel' <;> rfl
  | succ fuel ih =>
    intro fuel' ls h h'
    cases ls with
    | nil => cases fuel' <;> rfl
    | cons l ls =>
      cases fuel' with
      | zero => simp at h'
      | succ fuel' =>
        show (if startsTB l then _ else _) = (if startsTB l then _ else _)
        by_cases hf : startsTB l
        · rw [if_pos hf, if_pos hf]
          have hlen := collectBody_snd_length_le ls
          rw [ih fuel' (collectBody ls).2 (by simp at h; omega) (by simp at h'; omega)]
        · rw [if_neg hf, if_neg hf]
          exact ih fuel' ls (by simp at h; omega) (by simp at h'; omega)

theorem extractFrom_nil : extractFrom [] = [] := rfl

theorem extractFrom_cons (l : List Char) (ls : List (List Char)) :
    extractFrom (l :: ls) =
      if startsTB l then
        ⟨stripL (l.drop 3), joinNL (collectBody ls).1⟩ ::
          extractFrom (collectBody ls).2
      else extractFrom ls := by
  show extractFromF (ls.length + 1) (l :: ls) = _
  show (if startsTB l then
      (⟨stripL (l.drop 3), joinNL (collectBody ls).1⟩ : CodeBlock) ::
        extractFromF ls.length (collectBody ls).2
    else extractFromF ls.length ls) = _
  by_cases hf : startsTB l
  · rw [if_pos hf, if_pos hf,
      extractFromF_congr ls.length (collectBody ls).2.length (collectBody ls).2
        (collectBody_snd_length_le ls) (Nat.le_refl _)]
    rfl
  · rw [if_neg hf, if_neg hf]
    rfl

/-- Embeds `utils.extract_code_from_markdown`: split the document on LF and
run the fence-scanning loop. -/
def extract_code_from_markdown (markdown : List Char) : List CodeBlock :=
  extractFrom (splitNL markdown)

/-- A declarative, spec-style extractor parameterized by the fence-opening
predicate and the language-tag function (fuelled like `extractFromF`): the
body of a block is the run of lines up to (not including) the next
fence-opening line, and the closing fence line is consumed (`drop 1`). -/
def extractWithF (isOpen : List Char → Bool) (tagOf : List Char → List Char) :
    Nat → List (List Char) → List CodeBlock
  | _, [] => []
  | 0, _ :: _ => []
  | fuel + 1, l :: ls =>
    if isOpen l then
      ⟨tagOf l, joinNL (ls.takeWhile (fun x => ! isOpen x))⟩ ::
        extractWithF isOpen tagOf fuel ((ls.dropWhile (fun x => ! isOpen x)).drop 1)
    else extractWithF isOpen tagOf fuel ls

/-- The spec-style extractor at its canonical fuel. -/
def extractWith (isOpen : List Char → Bool) (tagOf : List Char → List Char)
    (ls : List (List Char)) : List CodeBlock :=
  extractWithF isOpen tagOf ls.length ls

theorem extractWithF_congr (isOpen : List Char → Bool) (tagOf : List Char → List Char) :
    ∀ fuel fuel' ls, ls.length ≤ fuel → ls.length ≤ fuel' →
      extractWithF isOpen tagOf fuel ls = extractWithF isOpen tagOf fuel' ls := by
  intro fuel
  induction fuel with
  | zero =>
    intro fuel' ls h _
    have : ls = [] := List.length_eq_zero.mp (Nat.le_zero.mp h)
    subst this
    cases fuel' <;> rfl
  | succ fuel ih =>
    intro fuel' ls h h'
    cases ls with
    | nil => cases fuel' <;> rfl
    | cons l ls =>
      cases fuel' with
      | zero => simp at h'
      | succ fuel' =>
        show (if isOpen l then _ else _) = (if isOpen l then _ else _)
        by_cases hf : isOpen l
        · rw [if_pos hf, if_pos hf]
          have h1 := (List.dropWhile_sublist (l := ls) (fun x => ! isOpen x)).length_le
          have h2 : ((ls.dropWhile (fun x => ! isOpen x)).drop 1).length ≤
              (ls.dropWhile (fun x => ! isOpen x)).length := by
            rw [List.length_drop]; omega
          rw [ih fuel' _ (by simp at h; omega) (by simp at h'; omega)]
        · rw [if_neg hf, if_neg hf]
          exact ih fuel' ls (by simp at h; omega) (by simp at h'; omega)

theorem extractWith_cons (isOpen : List Char → Bool) (tagOf : List Char → List Char)
    (l : List Char) (ls : List (List Char)) :
    extractWith isOpen tagOf (l :: ls) =
      if isOpen l then
        ⟨tagOf l, joinNL (ls.takeWhile (fun x => ! isOpen x))⟩ ::
          extractWith isOpen tagOf ((ls.dropWhile (fun x => ! isOpen x)).drop 1)
      else extractWith isOpen tagOf ls := by
  show extractWithF isOpen tagOf (ls.length + 1) (l :: ls) = _
  show (if isOpen l then
      (⟨tagOf l, joinNL (ls.takeWhile (fun x => ! isOpen x))⟩ : CodeBlock) ::
        extractWithF isOpen tagOf ls.length ((ls.dropWhile (fun x => ! isOpen x)).drop 1)
    else extractWithF isOpen tagOf ls.length ls) = _
  by_cases hf : isOpen l
  · rw [if_pos hf, if_pos hf]
    have h1 := (List.dropWhile_sublist (l := ls) (fun x => ! isOpen x)).length_le
    have h2 : ((ls.dropWhile (fun x => ! isOpen x)).drop 1).length ≤
        (ls.dropWhile (fun x => ! isOpen x)).length := by
      rw [List.length_drop]; omega
    rw [extractWithF_congr isOpen tagOf ls.length _ _ (by omega) (Nat.le_refl _)]
    rfl
  · rw [if_neg hf, if_neg hf]
    rfl

theorem collectBody_eq (ls : List (List Char)) :
    collectBody ls =
      (ls.takeWhile (fun x => ! startsTB x),
       (ls.dropWhile (fun x => ! startsTB x)).drop 1) := by
  induction ls with
  | nil => rfl
  | cons l ls ih =>
    unfold collectBody
    by_cases h : startsTB l
    · simp [h, List.takeWhile_cons, List.dropWhile_cons]
    · simp [h, List.takeWhile_cons, List.dropWhile_cons, ih]

-- scratch checks of the extractor against hand-traced Python behaviour:
example :
    extract_code_from_markdown "\x60\x60\x60python\nx=1\n\x60\x60\x60".data =
      [⟨"python".data, "x=1".data⟩] := by decide
example :
    extract_code_from_markdown "a\n\x60\x60\x60\nb\nc".data =
      [⟨[], "b\nc".data⟩] := by decide
example :
    extract_code_from_markdown "  \x60\x60\x60python\nx=1\n\x60\x60\x60".data =
      [⟨[], []⟩] := by decide

theorem extractFrom_eq_extractWith (ls : List (List Char)) :
    extractFrom ls = extractWith startsTB (fun l => stripL (l.drop 3)) ls := by
  generalize hn : ls.length = n
  induction n using Nat.strong_induction_on generalizing ls with
  | _ n ih =>
    cases ls with
    | nil => rfl
    | cons l ls =>
      rw [extractFrom_cons, extractWith_cons, collectBody_eq]
      by_cases hf : startsTB l
      · rw [if_pos hf, if_pos hf]
        have h1 := (List.dropWhile_sublist (l := ls) (fun x => ! startsTB x)).length_le
        have h2 : ((ls.dropWhile (fun x => ! startsTB x)).drop 1).length ≤
            (ls.dropWhile (fun x => ! startsTB x)).length := by
          rw [List.length_drop]; omega
        rw [ih ((ls.dropWhile (fun x => ! startsTB x)).drop 1).length
          (by simp at hn; omega) _ rfl]
      · rw [if_neg hf, if_neg hf]
        exact ih ls.length (by simp at hn; omega) ls rfl

/-- Claim C2 (amended): the extractor satisfies the specified fence grammar
except that a fence-opening line is recognized exactly when the line itself
(with NO stripping of leading whitespace) begins with the triple-backtick
marker; the trimmed remainder of the opening line is the language tag, the
body is every subsequent line up to but excluding the next fence-opening
line, and the closing fence line is consumed and excluded from the body.
`extractWith` is the direct transcription of that sentence. -/
theorem fence_grammar_spec (s : List Char) :
    extract_code_from_markdown s =
      extractWith startsTB (fun l => stripL (l.drop 3)) (splitNL s) :=
  extractFrom_eq_extractWith (splitNL s)

/-- The fence-opening test exactly as claim C2 words it: the line's content
after stripping leading whitespace begins with the triple-backtick marker. -/
def lstripFenceOpen (l : List Char) : Bool := startsTB (lstrip l)

/-- The extractor that claim C2 describes, with leading-whitespace-tolerant
fence recognition (second definition, following the spec's words, for
comparison with the source-derived one). -/
def extractClaimed (s : List Char) : List CodeBlock :=
  extractWith lstripFenceOpen (fun l => stripL ((lstrip l).drop 3)) (splitNL s)

/-- Claim C2 counterexample: for the document the document whose three lines are `"  ```python"`, `"x=1"` and `"```"` (the
fence of the first line indented by two spaces), the source extractor does not recognize the indented line as a fence
opening: it instead opens a block at the final bare fence and returns one
block with empty language and empty body, whereas the claimed
leading-whitespace-stripping grammar returns the python block. -/
theorem fence_lstrip_counterexample :
    extract_code_from_markdown "  \x60\x60\x60python\nx=1\n\x60\x60\x60".data =
        [⟨[], []⟩] ∧
      extractClaimed "  \x60\x60\x60python\nx=1\n\x60\x60\x60".data =
        [⟨"python".data, "x=1".data⟩] ∧
      extract_code_from_markdown "  \x60\x60\x60python\nx=1\n\x60\x60\x60".data ≠
        extractClaimed "  \x60\x60\x60python\nx=1\n\x60\x60\x60".data := by
  refine ⟨by decide, by decide, by decide⟩

theorem collectBody_no_fence {ls : List (List Char)}
    (h : ∀ l ∈ ls, startsTB l = false) : collectBody ls = (ls, []) := by
  induction ls with
  | nil => rfl
  | cons l ls ih =>
    unfold collectBody
    rw [if_neg (by simp [h l (List.mem_cons_self l ls)])]
    rw [ih (fun x hx => h x (List.mem_cons_of_mem l hx))]

theorem collectBody_append {ls xs : List (List Char)}
    (h : ls.countP startsTB ≠ 0) :
    collectBody (ls ++ xs) = ((collectBody ls).1, (collectBody ls).2 ++ xs) := by
  induction ls with
  | nil => simp [List.countP_nil] at h
  | cons l ls ih =>
    by_cases hf : startsTB l
    · show collectBody (l :: (ls ++ xs)) = _
      unfold collectBody
      rw [if_pos hf, if_pos hf]
    · have h' : ls.countP startsTB ≠ 0 := by
        rwa [List.countP_cons_of_neg _ _ (by simpa using hf)] at h
      show collectBody (l :: (ls ++ xs)) = _
      unfold collectBody
      rw [if_neg hf, if_neg hf, ih h']

/-- Structure of a line list containing at least one fence: `collectBody`
splits it as body ++ fence ++ rest, where the rest holds one fence fewer. -/
theorem collectBody_fence_structure {ls : List (List Char)}
    (h : ls.countP startsTB ≠ 0) :
    (collectBody ls).2.countP startsTB =
        ls.countP startsTB - 1 ∧
      (collectBody ls).2.length < ls.length := by
  rcases hd : ls.dropWhile (fun x => ! startsTB x) with _ | ⟨f, rest⟩
  · exfalso
    apply h
    rw [List.countP_eq_zero]
    intro a ha
    have := List.takeWhile_append_dropWhile (fun x => ! startsTB x) ls
    rw [hd, List.append_nil] at this
    have hmem : a ∈ ls.takeWhile (fun x => ! startsTB x) := by
      rw [this]; exact ha
    simpa using List.mem_takeWhile_imp hmem
  · have hf : startsTB f = true := by
      have := List.head?_dropWhile_not (fun x => ! startsTB x) ls
      rw [hd] at this
      simpa using this
    have hsplit := List.takeWhile_append_dropWhile (fun x => ! startsTB x) ls
    rw [hd] at hsplit
    have htake : (ls.takeWhile (fun x => ! startsTB x)).countP
        (fun l => startsTB l) = 0 := by
      rw [List.countP_eq_zero]
      intro a ha
      simpa using List.mem_takeWhile_imp ha
    constructor
    · rw [collectBody_eq]
      show ((ls.dropWhile (fun x => ! startsTB x)).drop 1).countP _ = _
      rw [hd]
      conv_rhs => rw [← hsplit]
      rw [List.countP_append, htake, List.countP_cons_of_pos _ _ hf]
      simp
    · rw [collectBody_eq]
      show ((ls.dropWhile (fun x => ! startsTB x)).drop 1).length < _
      rw [hd]
      conv_rhs => rw [← hsplit]
      simp only [List.drop_one, List.tail_cons, List.length_append, List.length_cons]
      omega

/-- Composition: a prefix of lines holding an even number of fence lines
parses independently of what follows it. -/
theorem extractFrom_append_even :
    ∀ n pre, pre.length ≤ n → pre.countP startsTB % 2 = 0 →
      ∀ xs, extractFrom (pre ++ xs) = extractFrom pre ++ extractFrom xs := by
  intro n
  induction n using Nat.strong_induction_on with
  | _ n ih =>
    intro pre hlen heven xs
    cases pre with
    | nil => simp [extractFrom_nil]
    | cons l pre' =>
      cases n with
      | zero => simp at hlen
      | succ n =>
        by_cases hf : startsTB l
        · have hodd : pre'.countP startsTB % 2 = 1 := by
            rw [List.countP_cons_of_pos _ _ hf] at heven
            omega
          have hne : pre'.countP startsTB ≠ 0 := by
            intro hc
            rw [hc] at hodd
            simp at hodd
          obtain ⟨hcount, hshort⟩ := collectBody_fence_structure hne
          show extractFrom (l :: (pre' ++ xs)) = _
          rw [extractFrom_cons, if_pos hf, collectBody_append hne,
            extractFrom_cons, if_pos hf]
          show _ :: extractFrom ((collectBody pre').2 ++ xs) = _
          rw [ih n (by omega) (collectBody pre').2
            (by simp at hlen; omega)
            (by rw [hcount]; omega) xs]
          simp
        · have heven' : pre'.countP startsTB % 2 = 0 := by
            rwa [List.countP_cons_of_neg _ _ (by simpa using hf)] at heven
          show extractFrom (l :: (pre' ++ xs)) = _
          rw [extractFrom_cons, if_neg hf, extractFrom_cons, if_neg hf]
          exact ih n (by omega) pre' (by simp at hlen; omega) heven' xs

/-- Claim C9 (confirmed): a document whose last fence is opened but never
closed still yields a final block whose body is all remaining lines after
the opening fence; the extractor is total, so no error is raised for the
missing closing fence. `pre` is the (well-fenced) part of the document
before the dangling fence line `t`. -/
theorem unterminated_fence_yields_block (s : List Char) (pre : List (List Char))
    (t : List Char) (rest : List (List Char))
    (hsplit : splitNL s = pre ++ t :: rest)
    (heven : pre.countP startsTB % 2 = 0)
    (ht : startsTB t = true)
    (hrest : ∀ r ∈ rest, startsTB r = false) :
    extract_code_from_markdown s =
      extractFrom pre ++ [⟨stripL (t.drop 3), joinNL rest⟩] := by
  unfold extract_code_from_markdown
  rw [hsplit, extractFrom_append_even pre.length pre (Nat.le_refl _) heven]
  rw [extractFrom_cons, if_pos ht, collectBody_no_fence hrest]
  rfl

/-- Witness for C9 at the concrete document three-line document opening with ```` ```python ```` and never closing, whose
single fence is never closed. -/
theorem unterminated_fence_witness :
    splitNL "\x60\x60\x60python\nx=1\ny=2".data =
        [] ++ "\x60\x60\x60python".data :: ["x=1".data, "y=2".data] ∧
      ([] : List (List Char)).countP startsTB % 2 = 0 ∧
      startsTB "\x60\x60\x60python".data = true ∧
      (∀ r ∈ ["x=1".data, "y=2".data], startsTB r = false) ∧
      extract_code_from_markdown "\x60\x60\x60python\nx=1\ny=2".data =
        extractFrom [] ++ [⟨"python".data, "x=1\ny=2".data⟩] := by
  refine ⟨by decide, by decide, by decide, by decide, ?_⟩
  have := unterminated_fence_yields_block "\x60\x60\x60python\nx=1\ny=2".data
    [] "\x60\x60\x60python".data ["x=1".data, "y=2".data]
    (by decide) (by decide) (by decide) (by decide)
  simpa using this

/-! ### Filename resolution
(`SoftwareDevelopmentAgent._extract_filename_from_content` and
`software_dev_workflow.extract_filename_from_content`)

The seven announcement regexes are abstracted: a scan receives, for each
pattern in the source's fixed order, the list of its capture-group values in
document order — exactly what `re.finditer(pattern, content, re.IGNORECASE)`
yields. The counting logic, which is what claims C3 and C5 are about, is
transcribed literally. -/

/-- Embeds the agent variant's post-processing
`re.sub(r'^(?:filename|file):\s*', '', filename, flags=re.IGNORECASE)`:
remove one case-insensitive leading `filename:` or `file:` label (the
alternation tries the longer literal first) plus following whitespace. -/
def stripLabel (f : List Char) : List Char :=
  if toLowerL (f.take 9) = "filename:".data then (f.drop 9).dropWhile isPyWs
  else if toLowerL (f.take 5) = "file:".data then (f.drop 5).dropWhile isPyWs
  else f

/-- Embeds the pattern loop of `_extract_filename_from_content` (agent
variant): for each pattern in order, iterate its matches with a counter that
RESTARTS at 0 for every pattern, returning the cleaned, stripped capture
whose per-pattern count equals `block_index`. -/
def extractFilenameScan : List (List (List Char)) → Nat → Option (List Char)
  | [], _ => none
  | ms :: restPatterns, block_index =>
    match ms.get? block_index with
    | some f => some (stripL (stripLabel f))
    | none => extractFilenameScan restPatterns block_index

/-- Insertion of a positioned match into a position-sorted list. -/
def insertByPos (x : Nat × List Char) : List (Nat × List Char) → List (Nat × List Char)
  | [] => [x]
  | y :: ys => if x.1 < y.1 then x :: y :: ys else y :: insertByPos x ys

/-- Sort positioned matches by their match start offset. -/
def sortByPos (l : List (Nat × List Char)) : List (Nat × List Char) :=
  l.foldr insertByPos []

/-- Modelled from the spec's words for claim C3 (second definition for
comparison): matches of all patterns are pooled, "counted in the order they
occur across all patterns' combined occurrences" (sorted by match start
offset in the document), and the match whose running count equals the target
ordinal is selected, then cleaned like the source cleans its result. -/
def combinedScan (occP : List (List (Nat × List Char))) (i : Nat) : Option (List Char) :=
  ((sortByPos occP.flatten).get? i).map (fun m => stripL (stripLabel m.2))

/-- Claim C3 counterexample: with pattern 1 matching once (capture `a.py` at
offset 0) and pattern 2 matching twice (captures `b.py`, `c.py` at offsets
10 and 20), the source scan for block ordinal 1 returns `c.py` — pattern 1
is exhausted (its counter never reaches 1), and pattern 2's own second match
is taken — whereas counting across all patterns' combined occurrences in
document order selects `b.py`, the second of [`a.py`, `b.py`, `c.py`]. Such
an occurrence profile is realized e.g. by a document of the form
`"save this to a.py ... filename: b.py ... filename: c.py"`. -/
theorem filename_scan_not_combined :
    extractFilenameScan
        ([[(0, "a.py".data)], [(10, "b.py".data), (20, "c.py".data)]].map
          (List.map Prod.snd)) 1 = some "c.py".data ∧
      combinedScan [[(0, "a.py".data)], [(10, "b.py".data), (20, "c.py".data)]] 1 =
        some "b.py".data ∧
      some "c.py".data ≠ (some "b.py".data : Option (List Char)) := by
  refine ⟨by decide, by decide, by decide⟩

/-- Claim C3 (amended): the explicit-pattern scan counts matches PER
PATTERN, with the running count reset for each pattern: the patterns are
tried in their fixed order, and for the first pattern that has more than
`block_index` matches in the document, its (block_index+1)-th match is
returned (label-stripped and trimmed); matches of different patterns are
never pooled into one combined count. -/
theorem filename_scan_per_pattern (occ : List (List (List Char))) (i : Nat) :
    extractFilenameScan occ i =
      ((occ.find? (fun ms => decide (i < ms.length))).bind (fun ms => ms.get? i)).map
        (fun f => stripL (stripLabel f)) := by
  induction occ with
  | nil => rfl
  | cons ms rest ih =>
    rcases hg : ms.get? i with _ | f
    · have hlen : ms.length ≤ i := List.get?_eq_none.mp hg
      show (match ms.get? i with
        | some f => some (stripL (stripLabel f))
        | none => extractFilenameScan rest i) = _
      rw [hg, List.find?_cons]
      have hd : decide (i < ms.length) = false := by
        simp
        omega
      rw [hd]
      exact ih
    · have hlen : i < ms.length := by
        rcases List.get?_eq_some.mp hg with ⟨h, _⟩
        exact h
      show (match ms.get? i with
        | some f => some (stripL (stripLabel f))
        | none => extractFilenameScan rest i) = _
      rw [hg, List.find?_cons]
      have hd : decide (i < ms.length) = true := by simpa using hlen
      rw [hd]
      show some (stripL (stripLabel f)) = (ms.get? i).map _
      rw [hg]
      rfl

/-- Embeds the pattern loop of the workflow variant
(`extract_filename_from_content` in `software_dev_workflow.py`): identical
per-pattern counting, but the raw capture is returned with no cleanup. -/
def scanRaw : List (List (List Char)) → Nat → Option (List Char)
  | [], _ => none
  | ms :: restPatterns, block_index =>
    match ms.get? block_index with
    | some f => some f
    | none => scanRaw restPatterns block_index

/-- Python `needle in hay` substring test. -/
def containsSub (hay needle : List Char) : Bool :=
  if hay.take needle.length = needle then true
  else
    match hay with
    | [] => false
    | _ :: cs => containsSub cs needle

example : containsSub "hello world".data "lo w".data = true := by decide
example : containsSub "hello".data "low".data = false := by decide

/-- Embeds the content-based defaults block of the workflow resolver: for a
known language tag, propose a conventional name from the surrounding text
(`'hello world' in content.lower()`), the code body (`'main' in code.lower()`),
or the fixed html/css names. -/
def contentDefault (content : List Char) (cb : CodeBlock) : Option (List Char) :=
  let language := toLowerL (stripL cb.language)
  if language = "python".data then
    if containsSub (toLowerL content) "hello world".data then some "hello_world.py".data
    else if containsSub (toLowerL cb.code) "main".data then some "main.py".data
    else none
  else if language = "javascript".data then
    if containsSub (toLowerL content) "hello world".data then some "hello_world.js".data
    else if containsSub (toLowerL cb.code) "main".data then some "main.js".data
    else none
  else if language = "html".data then some "index.html".data
  else if language = "css".data then some "styles.css".data
  else none

/-- Embeds `software_dev_workflow.extract_filename_from_content`: when the
block ordinal is in range, the content-based defaults are tried FIRST; only
when none of them fires does the explicit-pattern scan run. -/
def extract_filename_from_content (content : List Char) (block_index : Nat)
    (code_blocks : List CodeBlock) (occ : List (List (List Char))) :
    Option (List Char) :=
  match code_blocks.get? block_index with
  | some cb =>
    match contentDefault content cb with
    | some f => some f
    | none => scanRaw occ block_index
  | none => scanRaw occ block_index

/-- Claim C5 counterexample: for an html block at ordinal 0 whose document
carries an explicit announcement capturing `page.html` (first pattern's first
match), the workflow resolver returns the language-based default
`index.html`, not the explicitly announced `page.html`: the content-based
default is tried before the explicit-pattern scan, so "first match wins" does
not prefer the explicit announcement. -/
theorem workflow_resolver_prefers_language_default :
    extract_filename_from_content "x".data 0 [⟨"html".data, "p".data⟩]
        [["page.html".data]] = some "index.html".data ∧
      scanRaw [["page.html".data]] 0 = some "page.html".data ∧
      some "index.html".data ≠ (some "page.html".data : Option (List Char)) := by
  refine ⟨by decide, by decide, by decide⟩

/-- Claim C5 (amended): the workflow resolver tries its strategies in the
order content-based language default FIRST, then the explicit-pattern scan,
then the no-match fallback (`none`): whenever the content-based default
produces a name for the block's ordinal, that name is returned regardless of
any explicit filename-announcement match; the explicit-pattern scan decides
only when the content-based default is silent (or the ordinal is out of
range). -/
theorem workflow_resolver_order (content : List Char) (i : Nat)
    (blocks : List CodeBlock) (occ : List (List (List Char))) :
    (∀ cb, blocks.get? i = some cb →
        (∀ d, contentDefault content cb = some d →
            extract_filename_from_content content i blocks occ = some d) ∧
        (contentDefault content cb = none →
            extract_filename_from_content content i blocks occ = scanRaw occ i)) ∧
    (blocks.get? i = none →
        extract_filename_from_content content i blocks occ = scanRaw occ i) := by
  constructor
  · intro cb hcb
    constructor
    · intro d hd
      unfold extract_filename_from_content
      rw [hcb]
      show (match contentDefault content cb with
        | some f => some f
        | none => scanRaw occ i) = some d
      rw [hd]
    · intro hd
      unfold extract_filename_from_content
      rw [hcb]
      show (match contentDefault content cb with
        | some f => some f
        | none => scanRaw occ i) = scanRaw occ i
      rw [hd]
  · intro hnone
    unfold extract_filename_from_content
    rw [hnone]

/-- Witness for C5's amended theorem: a css block at ordinal 0 resolves to
`styles.css` even though an explicit announcement captures `a.py`. -/
theorem workflow_resolver_order_witness :
    ([⟨"css".data, "b".data⟩] : List CodeBlock).get? 0 = some ⟨"css".data, "b".data⟩ ∧
      contentDefault "x".data ⟨"css".data, "b".data⟩ = some "styles.css".data ∧
      extract_filename_from_content "x".data 0 [⟨"css".data, "b".data⟩]
        [["a.py".data]] = some "styles.css".data :=
  ⟨by decide, by decide,
    ((workflow_resolver_order "x".data 0 [⟨"css".data, "b".data⟩]
      [["a.py".data]]).1 ⟨"css".data, "b".data⟩ (by decide)).1
      "styles.css".data (by decide)⟩

/-! ### The filesystem model and `utils.write_file` -/

/-- The filesystem state: the set of directories that exist and the files on
disk as an association list from path to content. -/
structure FS where
  dirs : List (List Char)
  files : List (List Char × List Char)
deriving DecidableEq, Repr

/-- `os.path.exists`: true for both directories and files. -/
def pathExists (fs : FS) (p : List Char) : Bool :=
  fs.dirs.contains p || (fs.files.map Prod.fst).contains p

/-- Embeds `utils.ensure_directory`: create the directory if nothing exists
at the path (intermediate parent directories are not tracked separately by
the model). -/
def ensure_directory (fs : FS) (p : List Char) : FS :=
  if pathExists fs p then fs else ⟨p :: fs.dirs, fs.files⟩

/-- `posixpath.dirname`: everything before the last slash, with trailing
slashes then stripped unless the head is all slashes. -/
def dirname (p : List Char) : List Char :=
  match p.reverse.findIdx? (· = '/') with
  | none => []
  | some k =>
    let head := p.take (p.length - k)
    if head.all (· = '/') then head
    else (head.reverse.dropWhile (· = '/')).reverse

example : dirname "a/b".data = "a".data := by decide
example : dirname "ab".data = [] := by decide
example : dirname "/a".data = "/".data := by decide
example : dirname "a//b".data = "a".data := by decide
example : dirname "out/x/y.py".data = "out/x".data := by decide
example : dirname "../../etc/passwd".data = "../../etc".data := by decide

/-- `posixpath.join(a, b)` for two arguments: an absolute second argument
replaces the first; otherwise the parts are joined with a slash unless the
first already ends in one. -/
def pathJoin (a b : List Char) : List Char :=
  if b.head? = some '/' then b
  else if a = [] then b
  else if a.getLast? = some '/' then a ++ b
  else a ++ '/' :: b

example : pathJoin "out".data "a.py".data = "out/a.py".data := by decide
example : pathJoin "out/".data "a.py".data = "out/a.py".data := by decide
example : pathJoin "out".data "/etc/x".data = "/etc/x".data := by decide
example : pathJoin "out".data "../a".data = "out/../a".data := by decide

/-- Replace the content at `p` if a file exists there, else append a new
file: the effect of `open(p, 'w')` + write on the association list. -/
def upsertFile : List (List Char × List Char) → List Char → List Char →
    List (List Char × List Char)
  | [], p, c => [(p, c)]
  | (q, d) :: t, p, c =>
    if q = p then (p, c) :: t else (q, d) :: upsertFile t p c

/-- Read a file's content from the model. -/
def lookupFile (fs : FS) (p : List Char) : Option (List Char) :=
  fs.files.lookup p

/-- The parent-directory step of `utils.write_file`: `directory =
os.path.dirname(file_path); if directory: ensure_directory(directory)`. -/
def writeDirStep (fs : FS) (file_path : List Char) : FS :=
  if dirname file_path ≠ [] then ensure_directory fs (dirname file_path) else fs

/-- Embeds `utils.write_file`: ensure the parent directory exists (when the
path has one), sanitize the content with `clean_code`, then write it,
replacing any previous content at that path. -/
def write_file (fs : FS) (file_path content : List Char) : FS :=
  ⟨(writeDirStep fs file_path).dirs,
    upsertFile (writeDirStep fs file_path).files file_path (clean_code content)⟩

/-- Embeds `FileWriteTool._run`: delegates to `write_file` and returns a
success message. -/
def fileWriteTool_run (fs : FS) (file_path content : List Char) : FS × List Char :=
  (write_file fs file_path content,
    "Successfully wrote to file '".data ++ file_path ++ "'".data)

theorem lookup_upsertFile (files : List (List Char × List Char))
    (p c : List Char) : (upsertFile files p c).lookup p = some c := by
  induction files with
  | nil => simp [upsertFile, List.lookup]
  | cons qd t ih =>
    rcases qd with ⟨q, d⟩
    by_cases h : q = p
    · simp [upsertFile, h, List.lookup]
    · have hbeq : (p == q) = false := by simpa using Ne.symm h
      simp only [upsertFile, if_neg h, List.lookup, hbeq]
      exact ih

/-- Claim C10 (confirmed): every write through the shared `write_file`
re-applies the sanitizer, so the content stored on disk is
`clean_code content`, which has no trailing whitespace and none of whose
lines has trailing whitespace; the `FileWriteTool` delegates to the same
`write_file`. -/
theorem write_file_stores_sanitized (fs : FS) (path content : List Char) :
    lookupFile (write_file fs path content) path = some (clean_code content) ∧
      (∀ l ∈ pySplitlines (clean_code content), rstrip l = l) ∧
      rstrip (clean_code content) = clean_code content ∧
      (fileWriteTool_run fs path content).1 = write_file fs path content := by
  refine ⟨?_, fun l hl => clean_code_lines_rstripped l hl,
    rstrip_clean_code content, rfl⟩
  unfold write_file lookupFile
  exact lookup_upsertFile _ path (clean_code content)

/-! ### The save pipeline (`SoftwareDevelopmentAgent._save_code_blocks_to_files`) -/

/-- Embeds the `language_extensions` dict of `_get_extension_for_language`. -/
def language_extensions : List (List Char × List Char) :=
  [("python".data, ".py".data), ("javascript".data, ".js".data),
   ("typescript".data, ".ts".data), ("html".data, ".html".data),
   ("css".data, ".css".data), ("java".data, ".java".data),
   ("c".data, ".c".data), ("cpp".data, ".cpp".data),
   ("csharp".data, ".cs".data), ("go".data, ".go".data),
   ("rust".data, ".rs".data), ("php".data, ".php".data),
   ("ruby".data, ".rb".data), ("swift".data, ".swift".data),
   ("kotlin".data, ".kt".data)]

/-- Embeds `_get_extension_for_language`:
`language_extensions.get(language.lower(), '.txt')`. -/
def get_extension_for_language (language : List Char) : List Char :=
  match language_extensions.lookup (toLowerL language) with
  | some ext => ext
  | none => ".txt".data

example : get_extension_for_language "Python".data = ".py".data := by decide
example : get_extension_for_language "brainfuck".data = ".txt".data := by decide

/-- The synthetic fallback name `f"generated_code_{i+1}{extension}"` for the
block at 0-based ordinal `i`. -/
def defaultGeneratedName (i : Nat) (language : List Char) : List Char :=
  "generated_code_".data ++ (Nat.repr (i + 1)).data ++
    get_extension_for_language language

/-- The filename decision of the save loop: the explicit scan's result when
truthy (Python `if not filename` also rejects an empty string), else the
synthetic default name. -/
def resolveFilename (occ : List (List (List Char))) (i : Nat)
    (language : List Char) : List Char :=
  match extractFilenameScan occ i with
  | some f => if f = [] then defaultGeneratedName i language else f
  | none => defaultGeneratedName i language

/-- The `if '/' in filename` step of the save loop: pre-create the announced
directory component under the output root. -/
def dirStep (output_folder : List Char) (fs : FS) (filename : List Char) : FS :=
  if filename.contains '/' then
    ensure_directory fs (pathJoin output_folder (dirname filename))
  else fs

/-- The tail of the save-loop body once the filename, language and cleaned
code are computed: divert to `index<ext>` when the target path is an
existing directory, then write through `write_file`. -/
def saveResolved (output_folder : List Char) (fs : FS)
    (filename language code2 : List Char) : FS :=
  if (dirStep output_folder fs filename).dirs.contains (pathJoin output_folder filename) then
    write_file (dirStep output_folder fs filename)
      (pathJoin (pathJoin output_folder filename)
        ("index".data ++ get_extension_for_language language))
      code2
  else
    write_file (dirStep output_folder fs filename) (pathJoin output_folder filename) code2

/-- One iteration of the save loop of `_save_code_blocks_to_files` for block
`b` at ordinal `i`: skip empty bodies, resolve the filename, clean the code
(`%`-run strip plus rstrip), then hand over to `saveResolved`. -/
def saveBlock (output_folder : List Char) (occ : List (List (List Char)))
    (fs : FS) (i : Nat) (b : CodeBlock) : FS :=
  if stripL b.code = [] then fs
  else
    saveResolved output_folder fs
      (resolveFilename occ i (stripL b.language))
      (stripL b.language)
      (rstrip (subPercent (stripL b.code)))

/-- Embeds `_save_code_blocks_to_files`: extract the blocks and run the save
loop over them with their ordinals. -/
def save_code_blocks_to_files (output_folder content : List Char)
    (occ : List (List (List Char))) (fs : FS) : FS :=
  ((extract_code_from_markdown content).enum).foldl
    (fun fs ib => saveBlock output_folder occ fs ib.1 ib.2) fs

theorem extractFilenameScan_none {occ : List (List (List Char))}
    (h : ∀ ms ∈ occ, ms = []) (i : Nat) : extractFilenameScan occ i = none := by
  induction occ with
  | nil => rfl
  | cons ms rest ih =>
    have hms : ms = [] := h ms (List.mem_cons_self ms rest)
    subst hms
    show (match ([] : List (List Char)).get? i with
      | some f => some (stripL (stripLabel f))
      | none => extractFilenameScan rest i) = none
    exact ih (fun x hx => h x (List.mem_cons_of_mem [] hx))

/-- Witness for C10 at a concrete unsanitized content. -/
theorem write_file_stores_sanitized_witness :
    lookupFile (write_file ⟨[], []⟩ "out/a.py".data "x=1  \ny=2\t\n\n".data)
        "out/a.py".data = some (clean_code "x=1  \ny=2\t\n\n".data) ∧
      "y=2".data ∈ pySplitlines (clean_code "x=1  \ny=2\t\n\n".data) ∧
      rstrip "y=2".data = "y=2".data ∧
      rstrip (clean_code "x=1  \ny=2\t\n\n".data) =
        clean_code "x=1  \ny=2\t\n\n".data :=
  ⟨(write_file_stores_sanitized ⟨[], []⟩ "out/a.py".data "x=1  \ny=2\t\n\n".data).1,
    by decide,
    (write_file_stores_sanitized ⟨[], []⟩ "out/a.py".data
      "x=1  \ny=2\t\n\n".data).2.1 "y=2".data (by decide),
    (write_file_stores_sanitized ⟨[], []⟩ "out/a.py".data
      "x=1  \ny=2\t\n\n".data).2.2.1⟩

/-- Claim C7 counterexample: a document with exactly one python fenced region
whose body is empty produces NO file at all — the save loop skips blocks
whose stripped body is empty — whereas the claim promises exactly one file at
`<root>/generated_code_1.py` for every such document. -/
theorem pipeline_empty_python_block_writes_nothing :
    extract_code_from_markdown "\x60\x60\x60python\n\x60\x60\x60".data =
        [⟨"python".data, []⟩] ∧
      save_code_blocks_to_files "out".data "\x60\x60\x60python\n\x60\x60\x60".data
        [[], [], [], [], [], [], []] ⟨[], []⟩ = ⟨[], []⟩ := by
  refine ⟨by decide, by decide⟩

/-- Claim C7 (amended): for every document containing exactly one fenced
region whose language is python and whose body is nonempty after stripping,
with no filename-announcement match, the pipeline produces exactly one file,
at `<root>/generated_code_1.py` (holding the cleaned body); in general an
unresolved block at 0-based ordinal `i` is given the synthetic name
`generated_code_<i+1><extension-for-language>`, with extension `.txt` when
the language tag is not in the extension table. -/
theorem pipeline_synthetic_names :
    (∀ root doc occ fs b, extract_code_from_markdown doc = [b] →
      stripL b.language = "python".data → stripL b.code ≠ [] →
      (∀ ms ∈ occ, ms = []) →
      fs.dirs.contains (pathJoin root "generated_code_1.py".data) = false →
      save_code_blocks_to_files root doc occ fs =
        write_file fs (pathJoin root "generated_code_1.py".data)
          (rstrip (subPercent (stripL b.code)))) ∧
    (∀ occ i lang, extractFilenameScan occ i = none →
      resolveFilename occ i lang =
        "generated_code_".data ++ (Nat.repr (i + 1)).data ++
          get_extension_for_language lang) ∧
    (∀ lang, language_extensions.lookup (toLowerL lang) = none →
      get_extension_for_language lang = ".txt".data) := by
  refine ⟨?_, ?_, ?_⟩
  · intro root doc occ fs b hex hlang hbody hocc hdir
    unfold save_code_blocks_to_files
    rw [hex]
    show saveBlock root occ fs 0 b = _
    have hscan : extractFilenameScan occ 0 = none := extractFilenameScan_none hocc 0
    have hname : resolveFilename occ 0 (stripL b.language) =
        "generated_code_1.py".data := by
      unfold resolveFilename
      rw [hscan, hlang]
      decide
    unfold saveBlock
    rw [if_neg hbody, hname]
    have hds : dirStep root fs "generated_code_1.py".data = fs := by
      unfold dirStep
      rw [if_neg (by decide :
        ¬ ("generated_code_1.py".data.contains '/' = true))]
    unfold saveResolved
    rw [hds, if_neg (by rw [hdir]; simp)]
  · intro occ i lang hscan
    unfold resolveFilename
    rw [hscan]
    rfl
  · intro lang hl
    unfold get_extension_for_language
    rw [hl]

/-- Witness for C7's amended theorem at the concrete document
a single well-fenced python block `print(1)` with no pattern matches. -/
theorem pipeline_synthetic_names_witness :
    extract_code_from_markdown "\x60\x60\x60python\nprint(1)\n\x60\x60\x60".data =
        [⟨"python".data, "print(1)".data⟩] ∧
      stripL "python".data = "python".data ∧
      stripL "print(1)".data ≠ [] ∧
      (FS.mk [] []).dirs.contains (pathJoin "out".data "generated_code_1.py".data)
        = false ∧
      save_code_blocks_to_files "out".data
          "\x60\x60\x60python\nprint(1)\n\x60\x60\x60".data
          [[], [], [], [], [], [], []] ⟨[], []⟩ =
        write_file ⟨[], []⟩ (pathJoin "out".data "generated_code_1.py".data)
          (rstrip (subPercent (stripL "print(1)".data))) :=
  ⟨by decide, by decide, by decide, by decide,
    pipeline_synthetic_names.1 "out".data
      "\x60\x60\x60python\nprint(1)\n\x60\x60\x60".data
      [[], [], [], [], [], [], []] ⟨[], []⟩ ⟨"python".data, "print(1)".data⟩
      (by decide) (by decide) (by decide) (by decide) (by decide)⟩

theorem ensure_directory_dirs_mono {fs : FS} {p : List Char} (d : List Char)
    (h : fs.dirs.contains p = true) :
    (ensure_directory fs d).dirs.contains p = true := by
  unfold ensure_directory
  by_cases he : pathExists fs d
  · rw [if_pos he]
    exact h
  · rw [if_neg he]
    show (d :: fs.dirs).contains p = true
    simp only [List.contains_cons, Bool.or_eq_true]
    right
    exact h

theorem dirStep_dirs_mono {root : List Char} {fs : FS} {p fn : List Char}
    (h : fs.dirs.contains p = true) :
    (dirStep root fs fn).dirs.contains p = true := by
  unfold dirStep
  by_cases hc : fn.contains '/'
  · rw [if_pos hc]
    exact ensure_directory_dirs_mono _ h
  · rw [if_neg hc]
    exact h

theorem write_file_dirs_mono {fs : FS} {p : List Char} (q c : List Char)
    (h : fs.dirs.contains p = true) :
    (write_file fs q c).dirs.contains p = true := by
  unfold write_file writeDirStep
  by_cases hd : dirname q ≠ []
  · rw [if_pos hd]
    exact ensure_directory_dirs_mono _ h
  · rw [if_neg hd]
    exact h

theorem pathJoin_ne_of {a b : List Char} (hb : b ≠ [])
    (hh : b.head? ≠ some '/') : pathJoin a b ≠ a := by
  unfold pathJoin
  rw [if_neg hh]
  by_cases ha : a = []
  · rw [if_pos ha, ha]
    exact hb
  · rw [if_neg ha]
    by_cases hl : a.getLast? = some '/'
    · rw [if_pos hl]
      intro hc
      have := congrArg List.length hc
      rw [List.length_append] at this
      have hbne : 0 < b.length := List.length_pos.mpr hb
      omega
    · rw [if_neg hl]
      intro hc
      have := congrArg List.length hc
      rw [List.length_append] at this
      simp at this

/-- Claim C8 (confirmed): when the fully joined target path of a (nonempty)
block already exists on disk as a directory, materialization does not fail
(the function is total) and does not overwrite the directory: it writes
through `write_file` to the synthesized leaf `index<extension-for-language>`
INSIDE that directory — a path distinct from the directory's own — and the
directory is still present afterwards. -/
theorem materializer_directory_collision (root : List Char)
    (occ : List (List (List Char))) (fs : FS) (i : Nat) (b : CodeBlock)
    (hbody : stripL b.code ≠ [])
    (hdir : fs.dirs.contains
      (pathJoin root (resolveFilename occ i (stripL b.language))) = true) :
    saveBlock root occ fs i b =
      write_file (dirStep root fs (resolveFilename occ i (stripL b.language)))
        (pathJoin (pathJoin root (resolveFilename occ i (stripL b.language)))
          ("index".data ++ get_extension_for_language (stripL b.language)))
        (rstrip (subPercent (stripL b.code))) ∧
    pathJoin (pathJoin root (resolveFilename occ i (stripL b.language)))
        ("index".data ++ get_extension_for_language (stripL b.language)) ≠
      pathJoin root (resolveFilename occ i (stripL b.language)) ∧
    (saveBlock root occ fs i b).dirs.contains
      (pathJoin root (resolveFilename occ i (stripL b.language))) = true := by
  have hds : (dirStep root fs (resolveFilename occ i (stripL b.language))).dirs.contains
      (pathJoin root (resolveFilename occ i (stripL b.language))) = true :=
    dirStep_dirs_mono hdir
  have hmain : saveBlock root occ fs i b =
      write_file (dirStep root fs (resolveFilename occ i (stripL b.language)))
        (pathJoin (pathJoin root (resolveFilename occ i (stripL b.language)))
          ("index".data ++ get_extension_for_language (stripL b.language)))
        (rstrip (subPercent (stripL b.code))) := by
    unfold saveBlock
    rw [if_neg hbody]
    unfold saveResolved
    rw [if_pos hds]
  refine ⟨hmain, ?_, ?_⟩
  · apply pathJoin_ne_of
    · intro hc
      have := congrArg List.length hc
      rw [List.length_append] at this
      simp at this
    · intro hc
      have h0 : ("index".data ++
          get_extension_for_language (stripL b.language)).head? = some 'i' := rfl
      rw [h0] at hc
      simp at hc
  · rw [hmain]
    exact write_file_dirs_mono _ _ hds

/-- Witness for C8: an explicit announcement resolves block 0 to `app`, and
`/o/app` already exists as a directory, so the write is diverted to
`/o/app/index.py`. -/
theorem materializer_directory_collision_witness :
    stripL "x".data ≠ [] ∧
      (FS.mk ["/o/app".data] []).dirs.contains
        (pathJoin "/o".data (resolveFilename [["app".data]] 0
          (stripL "python".data))) = true ∧
      (saveBlock "/o".data [["app".data]] ⟨["/o/app".data], []⟩ 0
          ⟨"python".data, "x".data⟩ =
        write_file
          (dirStep "/o".data ⟨["/o/app".data], []⟩
            (resolveFilename [["app".data]] 0 (stripL "python".data)))
          (pathJoin (pathJoin "/o".data (resolveFilename [["app".data]] 0
              (stripL "python".data)))
            ("index".data ++ get_extension_for_language (stripL "python".data)))
          (rstrip (subPercent (stripL "x".data))) ∧
        pathJoin (pathJoin "/o".data (resolveFilename [["app".data]] 0
            (stripL "python".data)))
          ("index".data ++ get_extension_for_language (stripL "python".data)) ≠
          pathJoin "/o".data (resolveFilename [["app".data]] 0
            (stripL "python".data)) ∧
        (saveBlock "/o".data [["app".data]] ⟨["/o/app".data], []⟩ 0
            ⟨"python".data, "x".data⟩).dirs.contains
          (pathJoin "/o".data (resolveFilename [["app".data]] 0
            (stripL "python".data))) = true) :=
  ⟨by decide, by decide,
    materializer_directory_collision "/o".data [["app".data]]
      ⟨["/o/app".data], []⟩ 0 ⟨"python".data, "x".data⟩
      (by decide) (by decide)⟩

/-! ### Path containment (claim C4) -/

/-- Split a path on `/` (every separator splits, empty segments kept). -/
def splitSlash : List Char → List (List Char)
  | [] => [[]]
  | c :: cs =>
    if c = '/' then [] :: splitSlash cs
    else
      match splitSlash cs with
      | [] => [[c]]
      | h :: t => (c :: h) :: t

/-- Modelled from the spec: the Output root invariant "no resolved path may
escape this root". Segments are normalized (empty and `.` segments dropped,
`..` pops) and containment is prefix containment of the normalized segment
lists. -/
def normSegs (p : List Char) : List (List Char) :=
  (splitSlash p).foldl
    (fun acc s =>
      if s = [] || s = ".".data then acc
      else if s = "..".data then acc.dropLast
      else acc ++ [s]) []

/-- Modelled from the spec: `p` lies under the output root `root`. -/
def underRoot (root p : List Char) : Bool :=
  (normSegs p).take (normSegs root).length = normSegs root

example : underRoot "/out".data "/out/a.py".data = true := by decide
example : underRoot "/out".data "/out/x/y.py".data = true := by decide
example : underRoot "/out".data "/out/../../etc/passwd".data = false := by decide

/-- Claim C4: the code is unguarded against path traversal (`code_bug`: the
spec mandates rejection and itself flags the source's behaviour as the gap).
Evaluating the materializer at the failing input — a document with one python
block whose filename announcement captures `../../etc/passwd` — shows a file
being written at `/out/../../etc/passwd`, a path that does NOT lie under the
output root `/out`; nothing is rejected. -/
theorem traversal_unguarded :
    lookupFile
        (save_code_blocks_to_files "/out".data
          "\x60\x60\x60python\nx\n\x60\x60\x60".data
          [["../../etc/passwd".data], [], [], [], [], [], []] ⟨[], []⟩)
        "/out/../../etc/passwd".data = some "x".data ∧
      underRoot "/out".data "/out/../../etc/passwd".data = false := by
  refine ⟨by decide, by decide⟩

/-! ### The project-structure extractor
(`SoftwareDevelopmentAgent._create_project_structure` /
`software_dev_workflow.create_project_structure`)

The two regexes are modelled concretely, because their backtracking
behaviour matters:
* the region pattern (triple backtick, optional bash/shell/text keyword,
  `\s*`, `project/`, lazy any-run, closing triple backtick) with `re.DOTALL` under
  `re.search` (leftmost match; the keyword alternatives have pairwise
  distinct prefixes and `project` starts with a non-whitespace, non-keyword
  character, so no backtracking is possible);
* `(?:├|└)── ([a-zA-Z0-9_\-\.\/]+)\/` under `re.finditer`: the greedy
  character class swallows the trailing slash and backtracking surrenders
  characters from the right, so the capture is the run up to its LAST slash
  (which must not be the run's first character, as the group needs at least
  one character). -/

/-- The character class `[a-zA-Z0-9_\-\.\/]`. -/
def isClsChar (c : Char) : Bool :=
  ('a' ≤ c && c ≤ 'z') || ('A' ≤ c && c ≤ 'Z') || ('0' ≤ c && c ≤ '9') ||
    c = '_' || c = '-' || c = '.' || c = '/'

/-- Match a literal at the head of the input, returning the rest. -/
def dropLit (lit s : List Char) : Option (List Char) :=
  if s.take lit.length = lit then some (s.drop lit.length) else none

/-- The optional `(?:bash|shell|text)?` keyword after the opening fence. -/
def dropKeyword (s : List Char) : List Char :=
  if s.take 4 = "bash".data then s.drop 4
  else if s.take 5 = "shell".data then s.drop 5
  else if s.take 4 = "text".data then s.drop 4
  else s

/-- The lazy any-run up to the closing fence under DOTALL: consume up to and including the NEAREST
triple-backtick, returning the rest. -/
def findClose : List Char → Option (List Char)
  | [] => none
  | c :: cs =>
    if c :: cs.take 2 = fenceMarker then some (cs.drop 2) else findClose cs

/-- Match the structure-region pattern at the head of the input, returning
the rest of the string after the match. -/
def matchStructRest (s : List Char) : Option (List Char) :=
  match dropLit fenceMarker s with
  | none => none
  | some s1 =>
    match dropLit "project/".data ((dropKeyword s1).dropWhile isPyWs) with
    | none => none
    | some s4 => findClose s4

/-- `re.search(structure_pattern, content, re.DOTALL)`: the matched text of
the leftmost match. -/
def searchStruct : List Char → Option (List Char)
  | [] => none
  | c :: cs =>
    match matchStructRest (c :: cs) with
    | some r => some ((c :: cs).take ((c :: cs).length - r.length))
    | none => searchStruct cs

/-- The index of the last `/` in the matched character-class run. -/
def lastSlashIdx (run : List Char) : Option Nat :=
  (run.reverse.findIdx? (· = '/')).map (fun k => run.length - 1 - k)

/-- Match the tree-connector pattern at the head of the input: a `├` or `└`,
the literal `── `, then the greedy class run backtracked to its last slash
(capture = run before that slash, which must be nonempty). Returns
`(capture, rest-after-match)`. -/
def matchTreeDirAt : List Char → Option (List Char × List Char)
  | [] => none
  | c :: cs =>
    if c = '├' || c = '└' then
      match dropLit "── ".data cs with
      | some s2 =>
        match lastSlashIdx (s2.takeWhile isClsChar) with
        | some j =>
          if 1 ≤ j then some ((s2.takeWhile isClsChar).take j, s2.drop (j + 1))
          else none
        | none => none
      | none => none
    else none

/-- `re.finditer(dir_pattern, structure_text)` captures, with explicit fuel
(each step consumes at least one character, so fuel equal to the input
length, as supplied by `findTreeDirs`, never runs out). -/
def findTreeDirsF : Nat → List Char → List (List Char)
  | _, [] => []
  | 0, _ :: _ => []
  | fuel + 1, c :: cs =>
    match matchTreeDirAt (c :: cs) with
    | some gr => gr.1 :: findTreeDirsF fuel gr.2
    | none => findTreeDirsF fuel cs

/-- All directory-hint captures of the structure text, in match order. -/
def findTreeDirs (s : List Char) : List (List Char) :=
  findTreeDirsF s.length s

example :
    findTreeDirs "\n├── src/\n├── src//\n└── a/b/\nx".data =
      ["src".data, "src/".data, "a/b".data] := by decide

/-- The `__init__.py` step of the structure loop: only a hint that ends in a
slash (package-style) gets a package-marker file, created empty if nothing
exists at its path yet. -/
def initStep (output_folder : List Char) (fs : FS) (dir_path : List Char) : FS :=
  if dir_path.getLast? = some '/' then
    if pathExists fs (pathJoin (pathJoin output_folder dir_path) "__init__.py".data)
    then fs
    else write_file fs
      (pathJoin (pathJoin output_folder dir_path) "__init__.py".data) []
  else fs

/-- One iteration of the structure loop: create the hinted directory, then
the package-marker step. -/
def structStep (output_folder : List Char) (fs : FS) (dir_path : List Char) : FS :=
  initStep output_folder (ensure_directory fs (pathJoin output_folder dir_path))
    dir_path

/-- Embeds `_create_project_structure` / `create_project_structure`: find the
structure region, extract the directory hints, create each directory and the
package markers. -/
def create_project_structure (content output_folder : List Char) (fs : FS) : FS :=
  match searchStruct content with
  | none => fs
  | some structure_text =>
    (findTreeDirs structure_text).foldl (structStep output_folder) fs


theorem mem_keys_upsertFile {files : List (List Char × List Char)}
    {q c p : List Char} :
    p ∈ (upsertFile files q c).map Prod.fst ↔
      p = q ∨ p ∈ files.map Prod.fst := by
  induction files with
  | nil => simp [upsertFile]
  | cons kd t ih =>
    rcases kd with ⟨k, d⟩
    by_cases hk : k = q
    · subst hk
      rw [show upsertFile ((k, d) :: t) k c = (k, c) :: t from by
        simp only [upsertFile]; rw [if_pos trivial]]
      simp only [List.map_cons, List.mem_cons]
      tauto
    · rw [show upsertFile ((k, d) :: t) q c = (k, d) :: upsertFile t q c from by
        simp only [upsertFile]; rw [if_neg hk]]
      simp only [List.map_cons, List.mem_cons, ih]
      tauto

theorem pathExists_iff {fs : FS} {p : List Char} :
    pathExists fs p = true ↔ p ∈ fs.dirs ∨ p ∈ fs.files.map Prod.fst := by
  show (List.elem p fs.dirs || List.elem p (fs.files.map Prod.fst)) = true ↔ _
  rw [Bool.or_eq_true, List.elem_iff, List.elem_iff]

theorem ensure_directory_dirs_sup {fs : FS} {p : List Char} (d : List Char)
    (h : p ∈ fs.dirs) : p ∈ (ensure_directory fs d).dirs := by
  unfold ensure_directory
  by_cases he : pathExists fs d
  · rw [if_pos he]; exact h
  · rw [if_neg he]
    exact List.mem_cons_of_mem d h

theorem ensure_directory_files_eq (fs : FS) (d : List Char) :
    (ensure_directory fs d).files = fs.files := by
  unfold ensure_directory
  by_cases he : pathExists fs d
  · rw [if_pos he]
  · rw [if_neg he]

theorem writeDirStep_dirs_sup {fs : FS} {p : List Char} (q : List Char)
    (h : p ∈ fs.dirs) : p ∈ (writeDirStep fs q).dirs := by
  unfold writeDirStep
  by_cases hd : dirname q ≠ []
  · rw [if_pos hd]
    exact ensure_directory_dirs_sup _ h
  · rw [if_neg hd]; exact h

theorem writeDirStep_files_eq (fs : FS) (q : List Char) :
    (writeDirStep fs q).files = fs.files := by
  unfold writeDirStep
  by_cases hd : dirname q ≠ []
  · rw [if_pos hd]
    exact ensure_directory_files_eq fs _
  · rw [if_neg hd]

theorem pathExists_ensure_mono {fs : FS} {p : List Char} (d : List Char)
    (h : pathExists fs p = true) :
    pathExists (ensure_directory fs d) p = true := by
  rw [pathExists_iff] at h ⊢
  rw [ensure_directory_files_eq]
  rcases h with h | h
  · exact Or.inl (ensure_directory_dirs_sup d h)
  · exact Or.inr h

theorem pathExists_write_mono {fs : FS} {p : List Char} (q c : List Char)
    (h : pathExists fs p = true) :
    pathExists (write_file fs q c) p = true := by
  rw [pathExists_iff] at h ⊢
  rcases h with h | h
  · exact Or.inl (writeDirStep_dirs_sup q h)
  · refine Or.inr ?_
    show p ∈ (upsertFile (writeDirStep fs q).files q (clean_code c)).map Prod.fst
    rw [mem_keys_upsertFile, writeDirStep_files_eq]
    exact Or.inr h

theorem pathExists_ensure_self (fs : FS) (d : List Char) :
    pathExists (ensure_directory fs d) d = true := by
  by_cases he : pathExists fs d
  · unfold ensure_directory
    rw [if_pos he]; exact he
  · unfold ensure_directory
    rw [if_neg he]
    rw [pathExists_iff]
    exact Or.inl (List.mem_cons_self d _)

theorem pathExists_write_self (fs : FS) (q c : List Char) :
    pathExists (write_file fs q c) q = true := by
  rw [pathExists_iff]
  refine Or.inr ?_
  show q ∈ (upsertFile (writeDirStep fs q).files q (clean_code c)).map Prod.fst
  rw [mem_keys_upsertFile]
  exact Or.inl rfl

theorem pathExists_initStep_mono {root : List Char} {fs : FS} {p d : List Char}
    (h : pathExists fs p = true) : pathExists (initStep root fs d) p = true := by
  unfold initStep
  by_cases hs : d.getLast? = some '/'
  · rw [if_pos hs]
    by_cases he : pathExists fs (pathJoin (pathJoin root d) "__init__.py".data)
    · rw [if_pos he]; exact h
    · rw [if_neg he]
      exact pathExists_write_mono _ _ h
  · rw [if_neg hs]
    exact h

theorem pathExists_structStep_mono {root : List Char} {fs : FS} {p d : List Char}
    (h : pathExists fs p = true) : pathExists (structStep root fs d) p = true :=
  pathExists_initStep_mono (pathExists_ensure_mono _ h)

theorem pathExists_foldl_mono {root : List Char} {p : List Char} :
    ∀ (hints : List (List Char)) (fs : FS), pathExists fs p = true →
      pathExists (hints.foldl (structStep root) fs) p = true := by
  intro hints
  induction hints with
  | nil => intro fs h; exact h
  | cons a t ih =>
    intro fs h
    exact ih (structStep root fs a) (pathExists_structStep_mono h)

/-- After one structure step for hint `d`, the hinted directory path exists,
and for a package-style hint the marker file exists too. -/
theorem structStep_establishes (root : List Char) (fs : FS) (d : List Char) :
    pathExists (structStep root fs d) (pathJoin root d) = true ∧
      (d.getLast? = some '/' →
        pathExists (structStep root fs d)
          (pathJoin (pathJoin root d) "__init__.py".data) = true) := by
  constructor
  · exact pathExists_initStep_mono (pathExists_ensure_self fs (pathJoin root d))
  · intro hs
    unfold structStep initStep
    rw [if_pos hs]
    by_cases he : pathExists (ensure_directory fs (pathJoin root d))
        (pathJoin (pathJoin root d) "__init__.py".data)
    · rw [if_pos he]; exact he
    · rw [if_neg he]
      exact pathExists_write_self _ _ _

/-- Claim C6 (confirmed): for every DirectoryHint extracted from the
tree-diagram region, the Project-Structure Extractor makes the hinted
directory exist under the output root (creating it if absent), and when the
hint's captured name ends in a path separator — the code's structural test
for a package-style directory, satisfiable only via a doubled slash in the
tree line, e.g. `├── src//` — a package-marker `__init__.py` exists inside
it afterwards (created empty when absent). -/
theorem project_structure_creates_hints (content root : List Char) (fs : FS)
    (st : List Char) (hst : searchStruct content = some st) :
    ∀ d ∈ findTreeDirs st,
      pathExists (create_project_structure content root fs) (pathJoin root d)
          = true ∧
        (d.getLast? = some '/' →
          pathExists (create_project_structure content root fs)
            (pathJoin (pathJoin root d) "__init__.py".data) = true) := by
  have hred : create_project_structure content root fs =
      (findTreeDirs st).foldl (structStep root) fs := by
    unfold create_project_structure
    rw [hst]
  rw [hred]
  clear hred
  generalize findTreeDirs st = hints
  induction hints generalizing fs with
  | nil => intro d hd; simp at hd
  | cons a t ih =>
    intro d hd
    rcases List.mem_cons.mp hd with h1 | h1
    · subst h1
      obtain ⟨e1, e2⟩ := structStep_establishes root fs d
      constructor
      · exact pathExists_foldl_mono t _ e1
      · intro hs
        exact pathExists_foldl_mono t _ (e2 hs)
    · exact ih (structStep root fs a) d h1

/-- Witness for C6 at a concrete response containing a tree diagram with the
package-style hint `src/` (from the line `├── src//`). -/
theorem project_structure_creates_hints_witness :
    searchStruct
        "\x60\x60\x60\nproject/\n├── src//\n\x60\x60\x60".data =
      some "\x60\x60\x60\nproject/\n├── src//\n\x60\x60\x60".data ∧
    "src/".data ∈ findTreeDirs "\x60\x60\x60\nproject/\n├── src//\n\x60\x60\x60".data ∧
    pathExists
        (create_project_structure
          "\x60\x60\x60\nproject/\n├── src//\n\x60\x60\x60".data
          "out".data ⟨[], []⟩)
        (pathJoin "out".data "src/".data) = true ∧
    pathExists
        (create_project_structure
          "\x60\x60\x60\nproject/\n├── src//\n\x60\x60\x60".data
          "out".data ⟨[], []⟩)
        (pathJoin (pathJoin "out".data "src/".data) "__init__.py".data) = true := by
  refine ⟨by decide, by decide, ?_, ?_⟩
  · exact (project_structure_creates_hints
      "\x60\x60\x60\nproject/\n├── src//\n\x60\x60\x60".data "out".data ⟨[], []⟩
      "\x60\x60\x60\nproject/\n├── src//\n\x60\x60\x60".data (by decide)
      "src/".data (by decide)).1
  · exact (project_structure_creates_hints
      "\x60\x60\x60\nproject/\n├── src//\n\x60\x60\x60".data "out".data ⟨[], []⟩
      "\x60\x60\x60\nproject/\n├── src//\n\x60\x60\x60".data (by decide)
      "src/".data (by decide)).2 (by decide)
